import Mathlib

/-!
Shallow embedding of the S3 client operations of `boss_operator.py`
(class `BossOperator` of the py-oss-cli repository), with proofs of the
listed behavioural properties.

The object store is modelled as follows.  For the listing operation
`list_dir_files` the bucket is a lexicographically sorted list of keys,
and `list_objects_v2` with `StartAfter` and `MaxKeys = 100` serves the
keys strictly greater than the `StartAfter` value, in order, in pages
of at most 100 keys; `IsTruncated` is reported exactly when further
keys remain.  A response with no keys carries no `Contents` field, and
the Python code reads `resp["Contents"]` unconditionally, so that case
is modelled as an exception (`none`).  For the transfer operations the
bucket and the local file system are finite maps `String → Option
String` from paths to file contents.
-/

/-- Python `s.rstrip("/")`: removes every trailing slash character. -/
def pyRstripSlash (s : String) : String :=
  String.mk ((s.data.reverse.dropWhile (fun c => c == '/')).reverse)

/-- Python `s.startswith(pre)`: the character sequence of `pre` is a
prefix of the character sequence of `s`. -/
def pyStartsWith (s pre : String) : Bool :=
  pre.data.isPrefixOf s.data

/-- The normalized directory computed by `list_dir_files` at line 89,
`boss_dir = boss_dir.rstrip("/")+"/"`. -/
def normalizeDir (d : String) : String :=
  pyRstripSlash d ++ "/"

/-- Code-point order on characters, the order underlying the key order
of the store (UTF-8 byte order coincides with code-point order). -/
def cpLt (c d : Char) : Prop :=
  c.toNat < d.toNat

instance (c d : Char) : Decidable (cpLt c d) :=
  inferInstanceAs (Decidable (c.toNat < d.toNat))

/-- Computable lexicographic strict order on character lists, by code
points; this is the order in which the store serves keys. -/
def pyLtChars : List Char → List Char → Bool
  | [], [] => false
  | [], _ :: _ => true
  | _ :: _, [] => false
  | c :: cs, d :: ds => if c = d then pyLtChars cs ds else decide (cpLt c d)

/-- Lexicographic strict order on keys of the store. -/
def pyLt (s t : String) : Bool :=
  pyLtChars s.data t.data

/-- Splits a list into consecutive chunks of `n` elements (the final
chunk may be shorter).  The `fuel` argument only bounds the recursion
and is sufficient whenever `l.length ≤ fuel`. -/
def chunksOfFuel {α : Type*} (n : Nat) : Nat → List α → List (List α)
  | _, [] => []
  | 0, l => [l]
  | fuel + 1, x :: xs => (x :: xs.take (n - 1)) :: chunksOfFuel n fuel (xs.drop (n - 1))

/-- Splits a list into consecutive chunks of `n` elements; models how a
store serves a key sequence page by page under `MaxKeys = n`. -/
def chunksOf {α : Type*} (n : Nat) (l : List α) : List (List α) :=
  chunksOfFuel n l.length l

/-- The pages served by the store for `list_objects_v2` requests with
`StartAfter = startAfter` and `MaxKeys = 100` against a bucket whose
sorted key list is `store`: the keys strictly greater than
`startAfter`, in store order, in pages of 100. -/
def storePages (store : List String) (startAfter : String) : List (List String) :=
  chunksOf 100 (store.filter (fun k => pyLt startAfter k))

/-- The `while is_truncated` loop of `list_dir_files` (lines 90 to
105).  `pages` holds the successive responses the store would serve; an
empty response has no `Contents` entry, so the unguarded
`resp["Contents"]` (and `contents[-1]`) raises, modelled by `none`.
The loop keeps only keys starting with `pfx`, and continues exactly
when the last key of the page starts with `pfx` and the store reports
truncation (a further page exists).  The second component counts the
`list_objects_v2` requests issued. -/
def listPagesLoop (pfx : String) : List (List String) → Option (List String) × Nat
  | [] => (none, 1)
  | page :: rest =>
    match page.getLast? with
    | none => (none, 1)
    | some last =>
      let files := page.filter (fun k => pyStartsWith k pfx)
      if pyStartsWith last pfx && !rest.isEmpty then
        let r := listPagesLoop pfx rest
        (Option.map (fun more => files ++ more) r.1, r.2 + 1)
      else
        (some files, 1)

/-- The `list_dir_files` method (lines 74 to 106) run against a bucket
with sorted key list `store`.  `none` models an uncaught exception. -/
def list_dir_files (store : List String) (boss_dir : String) : Option (List String) :=
  (listPagesLoop (normalizeDir boss_dir) (storePages store (normalizeDir boss_dir))).1

/-- The continuation condition checked at lines 101 to 104: the last
key of the `Contents` of the page starts with the normalized
directory. -/
def lastKeyMatches (pfx : String) (page : List String) : Bool :=
  match page.getLast? with
  | some k => pyStartsWith k pfx
  | none => false

/-- A bucket, or a local directory tree: a finite map from paths to
file contents. -/
abbrev Store : Type := String → Option String

/-- Writing an object, `Object(bucket, k).upload_file(...)`, or a local
file write. -/
def Store.put (b : Store) (k v : String) : Store :=
  fun q => if q = k then some v else b q

/-- Removing an object, `Object(bucket, k).delete()`, or `os.remove`.
On an absent key this is a no-op, as for the S3 delete. -/
def Store.erase (b : Store) (k : String) : Store :=
  fun q => if q = k then none else b q

/-- Remote operations issued against the store, in order: the HEAD
request of an existence check, a delete, a put with its content. -/
inductive Ev : Type
  | head (k : String)
  | delete (k : String)
  | put (k : String) (content : String)
  deriving DecidableEq

/-- The existence check `__boss_file_exist` (lines 373 to 392): a HEAD
request; a 404 answer is a normal negative result. -/
def boss_file_exist (bucket : Store) (file_path : String) : Bool :=
  (bucket file_path).isSome

/-- The check `__local_file_exist` (lines 403 to 416). -/
def local_file_exist (lfs : Store) (file_path : String) : Bool :=
  (lfs file_path).isSome

/-- The `upload_single_file` method (lines 128 to 152) over a local
file system `lfs` and a bucket.  Returns the boolean result, the
bucket after the call, and the trace of remote operations issued.  A
missing local file raises, and the `except` clause turns that into
`False` before any remote operation; an existing remote object is
deleted before the upload. -/
def upload_single_file (lfs bucket : Store) (file_path upload_path : String) :
    Bool × Store × List Ev :=
  match lfs file_path with
  | none => (false, bucket, [])
  | some c =>
    match bucket upload_path with
    | some _ =>
      (true, (bucket.erase upload_path).put upload_path c,
        [Ev.head upload_path, Ev.delete upload_path, Ev.put upload_path c])
    | none =>
      (true, bucket.put upload_path c, [Ev.head upload_path, Ev.put upload_path c])

/-- The loop of `upload_files` (lines 173 to 174): sequential calls of
`upload_single_file` on the zipped path lists; the boolean result of
each call is discarded. -/
def upload_files_loop (lfs : Store) (bucket : Store) :
    List (String × String) → Store × List Ev
  | [] => (bucket, [])
  | (file, path) :: rest =>
    let r := upload_single_file lfs bucket file path
    let rr := upload_files_loop lfs r.2.1 rest
    (rr.1, r.2.2 ++ rr.2)

/-- The `upload_files` method (lines 154 to 178): the length check,
then the sequential upload loop; returns `True` whenever the length
check passes, regardless of individual failures. -/
def upload_files (lfs bucket : Store) (file_list path_list : List String) :
    Bool × Store × List Ev :=
  if file_list.length ≠ path_list.length then (false, bucket, [])
  else
    let r := upload_files_loop lfs bucket (file_list.zip path_list)
    (true, r.1, r.2)

/-- The `download_single_file` method (lines 216 to 240).  The four
cases mirror the Python conditionals: local absent and remote present
(download), local present and remote present (`os.remove`, then
download), local present and remote absent (`os.remove`, then
`download_file` raises a 404 error and the handler returns `False`),
both absent (logged no-op success). -/
def download_single_file (bucket lfs : Store) (file path : String) : Bool × Store :=
  match lfs path, bucket file with
  | none, some c => (true, lfs.put path c)
  | some _, some c => (true, (lfs.erase path).put path c)
  | some _, none => (false, lfs.erase path)
  | none, none => (true, lfs)

/-- The `delete_single_file` method (lines 299 to 319): issues the
delete, then checks existence; a still-present object means failure. -/
def delete_single_file (bucket : Store) (file_path : String) : Bool × Store × List Ev :=
  let b' := bucket.erase file_path
  if boss_file_exist b' file_path then
    (false, b', [Ev.delete file_path, Ev.head file_path])
  else
    (true, b', [Ev.delete file_path, Ev.head file_path])

/-- Models the Python library call `re.match(pattern, name)` for the
regular-expression constructs the ignore rules use: literal
characters, backslash escapes, the dot (any character but a newline),
and the postfix star.  The match is anchored at the start of the
string and trailing characters are allowed, the documented semantics
of `re.match` as opposed to `re.fullmatch`.  The `fuel` argument only
bounds the recursion; every step shortens the pattern or the string,
so `pattern.length + string.length + 1` is always sufficient. -/
def reMatchFuel : Nat → List Char → List Char → Bool
  | 0, _, _ => false
  | fuel + 1, p, s =>
    match p, s with
    | [], _ => true
    | '\\' :: c :: '*' :: p', _ =>
      reMatchFuel fuel p' s ||
        (match s with
         | d :: s' => (d == c) && reMatchFuel fuel ('\\' :: c :: '*' :: p') s'
         | [] => false)
    | '\\' :: c :: p', d :: s' => (d == c) && reMatchFuel fuel p' s'
    | '\\' :: _ :: _, [] => false
    | ['\\'], _ => false
    | '.' :: '*' :: p', _ =>
      reMatchFuel fuel p' s ||
        (match s with
         | d :: s' => (d != '\n') && reMatchFuel fuel ('.' :: '*' :: p') s'
         | [] => false)
    | '.' :: p', d :: s' => (d != '\n') && reMatchFuel fuel p' s'
    | '.' :: _, [] => false
    | c :: '*' :: p', _ =>
      reMatchFuel fuel p' s ||
        (match s with
         | d :: s' => (d == c) && reMatchFuel fuel (c :: '*' :: p') s'
         | [] => false)
    | c :: p', d :: s' => (d == c) && reMatchFuel fuel p' s'
    | _ :: _, [] => false

/-- The `__match_file_name` method (lines 437 to 450): `re.match` of
the pattern against the file name, anchored at the start. -/
def match_file_name (file_name : String) (pattern : String) : Bool :=
  reMatchFuel (pattern.data.length + file_name.data.length + 1) pattern.data file_name.data

/-- Python `s.split(sep)` for a one-character separator, over character
lists. -/
def pySplitChars (sep : Char) (l : List Char) : List (List Char) :=
  l.foldr (fun c r => if c = sep then [] :: r else (c :: r.headD []) :: r.tail) [[]]

/-- Python `ignore_re.split(",")` at line 201. -/
def pySplitComma (s : String) : List String :=
  (pySplitChars ',' s.data).map String.mk

/-- The ignore decision of `upload_dir` (lines 199 to 207): when
`ignore_re` is truthy (neither `None` nor empty), the comma-separated
rules are tried in order and the first match short-circuits. -/
def is_ignored (ignore_re : Option String) (file_name : String) : Bool :=
  match ignore_re with
  | none => false
  | some r =>
    if r = "" then false
    else (pySplitComma r).any (fun rule => match_file_name file_name rule)

/-- The planning loop of `upload_dir` (lines 197 to 209): the local
path list and the remote path list for the surviving file names, in
order. -/
def upload_dir_loop (file_dir up_dir : String) (ignore_re : Option String) :
    List String → List String × List String
  | [] => ([], [])
  | name :: rest =>
    let r := upload_dir_loop file_dir up_dir ignore_re rest
    if is_ignored ignore_re name then r
    else ((file_dir ++ "/" ++ name) :: r.1, (up_dir ++ "/" ++ name) :: r.2)

/-- The `upload_dir` method (lines 180 to 214) applied to the file
names the local tree walk produced: plans the transfer, runs
`upload_files`, and returns `True` ignoring its result. -/
def upload_dir (lfs bucket : Store) (file_names : List String)
    (file_dir up_dir : String) (ignore_re : Option String) : Bool × Store × List Ev :=
  let plan := upload_dir_loop file_dir up_dir ignore_re file_names
  let r := upload_files lfs bucket plan.1 plan.2
  (true, r.2)

/-- Sanity checks of the regular-expression model against the
documented behaviour of `re.match` on the constructs in use. -/
theorem match_file_name_model_checks :
    match_file_name "a.txt" "a\\..*" = true ∧
    match_file_name "a.log" "a\\..*" = true ∧
    match_file_name "b.txt" "a\\..*" = false ∧
    match_file_name "a.txt" "a\\." = true ∧
    match_file_name "axtxt" "a\\." = false ∧
    match_file_name "aaab" "a*b" = true ∧
    match_file_name "b" "a*b" = true ∧
    match_file_name "xyz" "x.z" = true := by
  decide

theorem Store.put_apply_same (b : Store) (k v : String) : b.put k v k = some v := by
  simp [Store.put]

theorem Store.erase_put (b : Store) (k v : String) : (b.erase k).put k v = b.put k v := by
  funext q
  by_cases hq : q = k <;> simp [Store.put, Store.erase, hq]

theorem Store.put_put (b : Store) (k v w : String) : (b.put k v).put k w = b.put k w := by
  funext q
  by_cases hq : q = k <;> simp [Store.put, hq]

/-- C3 (amended): when the remote object is absent and the local path
does not exist either, `download_single_file` returns success and
leaves the local file system unchanged; when the local path does exist
the call instead removes it and fails (see the counterexample). -/
theorem download_single_file_absent_remote_noop (bucket lfs : Store) (file path : String)
    (hremote : bucket file = none) (hlocal : lfs path = none) :
    download_single_file bucket lfs file path = (true, lfs) := by
  simp [download_single_file, hremote, hlocal]

/-- Witness for C3 at concrete empty stores. -/
theorem download_single_file_absent_remote_noop_witness :
    download_single_file (fun _ => none) (fun _ => none) "r" "p" = (true, fun _ => none) :=
  download_single_file_absent_remote_noop (fun _ => none) (fun _ => none) "r" "p" rfl rfl

/-- C3 counterexample: remote object absent but local file present:
`download_single_file` returns failure and the local file is removed,
so the claim fails as stated for that localPath. -/
theorem download_single_file_absent_remote_counterexample :
    (fun q => if q = "a.txt" then some "old" else none : Store) "a.txt" = some "old" ∧
    (download_single_file (fun _ => none)
        (fun q => if q = "a.txt" then some "old" else none) "remote/missing" "a.txt").1 = false ∧
    (download_single_file (fun _ => none)
        (fun q => if q = "a.txt" then some "old" else none) "remote/missing" "a.txt").2
      "a.txt" = none := by
  refine ⟨rfl, rfl, rfl⟩

/-- C10: when the local file exists and the remote object is absent,
`download_single_file` removes the local file first, the download then
fails, and the call returns failure with the local file still gone. -/
theorem download_single_file_removes_local (bucket lfs : Store) (file path : String)
    (hremote : bucket file = none) (hlocal : local_file_exist lfs path = true) :
    (download_single_file bucket lfs file path).1 = false ∧
    (download_single_file bucket lfs file path).2 = lfs.erase path ∧
    (download_single_file bucket lfs file path).2 path = none := by
  rw [local_file_exist, Option.isSome_iff_exists] at hlocal
  obtain ⟨c, hc⟩ := hlocal
  refine ⟨?_, ?_, ?_⟩ <;> simp [download_single_file, hremote, hc, Store.erase]

/-- Witness for C10 at a concrete one-file local file system. -/
theorem download_single_file_removes_local_witness :
    (download_single_file (fun _ => none)
        (fun q => if q = "a" then some "x" else none) "r" "a").1 = false ∧
    (download_single_file (fun _ => none)
        (fun q => if q = "a" then some "x" else none) "r" "a").2 =
      Store.erase (fun q => if q = "a" then some "x" else none) "a" ∧
    (download_single_file (fun _ => none)
        (fun q => if q = "a" then some "x" else none) "r" "a").2 "a" = none :=
  download_single_file_removes_local (fun _ => none)
    (fun q => if q = "a" then some "x" else none) "r" "a" rfl (by decide)

/-- C6: a second `upload_single_file` of the same local content leaves
the bucket exactly as after the first call, and when the local file
exists one call already stores the object with matching content. -/
theorem upload_single_file_idempotent (lfs bucket : Store) (fp up : String) :
    (upload_single_file lfs ((upload_single_file lfs bucket fp up).2.1) fp up).2.1 =
      (upload_single_file lfs bucket fp up).2.1 ∧
    (∀ c, lfs fp = some c → (upload_single_file lfs bucket fp up).2.1 up = some c) := by
  constructor
  · cases h : lfs fp with
    | none => simp [upload_single_file, h]
    | some c =>
      cases hb : bucket up with
      | none =>
        simp [upload_single_file, h, hb, Store.put_apply_same, Store.erase_put, Store.put_put]
      | some d =>
        simp [upload_single_file, h, hb, Store.put_apply_same, Store.erase_put, Store.put_put]
  · intro c hc
    cases hb : bucket up with
    | none => simp [upload_single_file, hc, hb, Store.put_apply_same]
    | some d => simp [upload_single_file, hc, hb, Store.put_apply_same, Store.erase_put]

/-- Witness for C6 at a concrete one-file local file system. -/
theorem upload_single_file_idempotent_witness :
    (upload_single_file (fun _ => some "data") ((upload_single_file (fun _ => some "data")
        (fun _ => none) "f" "u").2.1) "f" "u").2.1 =
      (upload_single_file (fun _ => some "data") (fun _ => none) "f" "u").2.1 ∧
    (upload_single_file (fun _ => some "data") (fun _ => none) "f" "u").2.1 "u" =
      some "data" := by
  have h := upload_single_file_idempotent (fun _ => some "data") (fun _ => none) "f" "u"
  exact ⟨h.1, h.2 "data" rfl⟩

/-- C5: `upload_single_file` fails with no remote operation at all when
the local file is missing; when the local file exists and an object is
already present at the remote path, the issued trace deletes that
object before the put and the call succeeds with the new content
stored.  The result is in every case a boolean, the exception handler
at this boundary never lets an exception escape. -/
theorem upload_single_file_policy (lfs bucket : Store) (fp up : String) :
    (lfs fp = none → upload_single_file lfs bucket fp up = (false, bucket, [])) ∧
    (∀ c d, lfs fp = some c → bucket up = some d →
      upload_single_file lfs bucket fp up =
        (true, bucket.put up c, [Ev.head up, Ev.delete up, Ev.put up c])) := by
  constructor
  · intro h
    simp [upload_single_file, h]
  · intro c d hc hd
    simp [upload_single_file, hc, hd, Store.erase_put]

/-- Witness for C5: both branches at concrete stores. -/
theorem upload_single_file_policy_witness :
    upload_single_file (fun _ => none) (fun _ => none) "f" "u" =
      (false, fun _ => none, []) ∧
    upload_single_file (fun _ => some "c") (fun _ => some "d") "f" "u" =
      (true, Store.put (fun _ => some "d") "u" "c",
        [Ev.head "u", Ev.delete "u", Ev.put "u" "c"]) :=
  ⟨(upload_single_file_policy (fun _ => none) (fun _ => none) "f" "u").1 rfl,
   (upload_single_file_policy (fun _ => some "c") (fun _ => some "d") "f" "u").2
      "c" "d" rfl rfl⟩

theorem upload_files_loop_all_missing (bucket : Store) (l : List (String × String)) :
    upload_files_loop (fun _ => none) bucket l = (bucket, []) := by
  induction l with
  | nil => rfl
  | cons hd rest ih =>
    obtain ⟨f, p⟩ := hd
    simp [upload_files_loop, upload_single_file, ih]

/-- C4: `upload_files` fails without issuing any remote operation when
the two lists differ in length; with equal lengths it runs the
sequential per-pair loop and returns success for every local file
system and bucket, in particular when every single upload fails
(an empty local file system), in which case no operation is issued and
the bucket is unchanged yet the result is still success. -/
theorem upload_files_batch_policy (lfs bucket : Store) (file_list path_list : List String) :
    (file_list.length ≠ path_list.length →
      upload_files lfs bucket file_list path_list = (false, bucket, [])) ∧
    (file_list.length = path_list.length →
      (upload_files lfs bucket file_list path_list).1 = true) ∧
    (file_list.length = path_list.length →
      upload_files (fun _ => none) bucket file_list path_list = (true, bucket, [])) := by
  refine ⟨fun h => ?_, fun h => ?_, fun h => ?_⟩
  · simp [upload_files, h]
  · simp [upload_files, h]
  · simp [upload_files, h, upload_files_loop_all_missing]

/-- Witness for C4: a mismatched pair of lists and an equal-length pair
whose only upload fails. -/
theorem upload_files_batch_policy_witness :
    upload_files (fun _ => none) (fun _ => none) ["a"] [] = (false, fun _ => none, []) ∧
    (upload_files (fun _ => none) (fun _ => none) ["a"] ["k"]).1 = true :=
  ⟨(upload_files_batch_policy (fun _ => none) (fun _ => none) ["a"] []).1 (by decide),
   (upload_files_batch_policy (fun _ => none) (fun _ => none) ["a"] ["k"]).2.1 rfl⟩

/-- C8: `delete_single_file` issues the delete and then the existence
check, in that order; it reports failure exactly when the object is
still present after the delete, and since the store delete removes the
key the result is success with the object gone; on an already absent
key nothing raises and the call again returns a boolean. -/
theorem delete_single_file_policy (bucket : Store) (fp : String) :
    (delete_single_file bucket fp).2.2 = [Ev.delete fp, Ev.head fp] ∧
    ((delete_single_file bucket fp).1 = false ↔
      boss_file_exist (bucket.erase fp) fp = true) ∧
    (delete_single_file bucket fp).1 = true ∧
    (delete_single_file bucket fp).2.1 fp = none := by
  refine ⟨?_, ?_, ?_, ?_⟩ <;>
    simp [delete_single_file, boss_file_exist, Store.erase]

/-- C9: when no key of the bucket sorts strictly after the normalized
directory (an empty bucket, or a prefix past every key), the first
listing response has no `Contents` entry and `list_dir_files` raises
instead of returning the empty list. -/
theorem list_dir_files_raises_on_empty_page (store : List String) (d : String)
    (h : store.filter (fun k => pyLt (normalizeDir d) k) = []) :
    list_dir_files store d = none := by
  simp [list_dir_files, storePages, h, chunksOf, chunksOfFuel, listPagesLoop]

/-- Witness for C9 at the empty bucket. -/
theorem list_dir_files_raises_on_empty_page_witness :
    list_dir_files [] "foo" = none :=
  list_dir_files_raises_on_empty_page [] "foo" rfl

theorem upload_dir_loop_eq_filter (file_names : List String) (fdir udir : String)
    (igo : Option String) :
    upload_dir_loop fdir udir igo file_names =
      ((file_names.filter (fun n => !is_ignored igo n)).map (fun n => fdir ++ "/" ++ n),
       (file_names.filter (fun n => !is_ignored igo n)).map (fun n => udir ++ "/" ++ n)) := by
  induction file_names with
  | nil => rfl
  | cons name rest ih =>
    by_cases h : is_ignored igo name <;> simp [upload_dir_loop, List.filter_cons, h, ih]

/-- C7: `upload_dir` excludes a file name exactly when some rule of the
comma-separated ignore list matches it under the prefix-anchored
`re.match` semantics, rules tried in order; concretely, with local
files a.txt, a.log, b.txt and the rule a\..* only b.txt is planned and
transferred, and matching is by prefix, not by full string. -/
theorem upload_dir_ignore_filtering :
    (∀ (file_names : List String) (fdir udir : String) (igo : Option String),
      upload_dir_loop fdir udir igo file_names =
        ((file_names.filter (fun n => !is_ignored igo n)).map (fun n => fdir ++ "/" ++ n),
         (file_names.filter (fun n => !is_ignored igo n)).map (fun n => udir ++ "/" ++ n))) ∧
    upload_dir_loop "src" "remote/dir" (some "a\\..*") ["a.txt", "a.log", "b.txt"] =
      (["src/b.txt"], ["remote/dir/b.txt"]) ∧
    (upload_dir
        (fun p => if p = "src/a.txt" ∨ p = "src/a.log" ∨ p = "src/b.txt"
          then some "data" else none)
        (fun _ => none) ["a.txt", "a.log", "b.txt"] "src" "remote/dir"
        (some "a\\..*")).2.2 =
      [Ev.head "remote/dir/b.txt", Ev.put "remote/dir/b.txt" "data"] ∧
    match_file_name "a.txt" "a\\." = true := by
  refine ⟨upload_dir_loop_eq_filter, by decide, by decide, by decide⟩

theorem listPagesLoop_cons_continue (pfx : String) (pg : List String)
    (rest : List (List String)) (last : String) (hl : pg.getLast? = some last)
    (hc : (pyStartsWith last pfx && !rest.isEmpty) = true) :
    listPagesLoop pfx (pg :: rest) =
      (Option.map (fun more => pg.filter (fun k => pyStartsWith k pfx) ++ more)
        (listPagesLoop pfx rest).1, (listPagesLoop pfx rest).2 + 1) := by
  simp [listPagesLoop, hl, hc]

theorem listPagesLoop_cons_stop (pfx : String) (pg : List String)
    (rest : List (List String)) (last : String) (hl : pg.getLast? = some last)
    (hc : (pyStartsWith last pfx && !rest.isEmpty) = false) :
    listPagesLoop pfx (pg :: rest) =
      (some (pg.filter (fun k => pyStartsWith k pfx)), 1) := by
  simp [listPagesLoop, hl, hc]

/-- C2: over nonempty pages the pagination loop issues at least one
request and at most one request per available page; every page before
the last requested one had a last key starting with the prefix and was
reported truncated (a further page existed), and the loop stops at the
first page whose last key does not start with the prefix, or at the
final page of the enumeration. -/
theorem listPagesLoop_continuation_policy (pfx : String) (pages : List (List String))
    (hnil : pages ≠ []) (hpg : ∀ pg ∈ pages, pg ≠ []) :
    1 ≤ (listPagesLoop pfx pages).2 ∧
    (listPagesLoop pfx pages).2 ≤ pages.length ∧
    (∀ i, i + 1 < (listPagesLoop pfx pages).2 →
      lastKeyMatches pfx (pages.getD i []) = true ∧ i + 1 < pages.length) ∧
    (lastKeyMatches pfx (pages.getD ((listPagesLoop pfx pages).2 - 1) []) = false ∨
      (listPagesLoop pfx pages).2 = pages.length) := by
  induction pages with
  | nil => exact absurd rfl hnil
  | cons pg rest ih =>
    have hpgne : pg ≠ [] := hpg pg (List.mem_cons_self pg rest)
    obtain ⟨last, hl⟩ : ∃ last, pg.getLast? = some last := by
      cases h : pg.getLast? with
      | none => exact absurd (List.getLast?_eq_none_iff.mp h) hpgne
      | some k => exact ⟨k, rfl⟩
    have hmatch : lastKeyMatches pfx pg = pyStartsWith last pfx := by
      simp [lastKeyMatches, hl]
    by_cases hc : (pyStartsWith last pfx && !rest.isEmpty) = true
    · have hrest : rest ≠ [] := by
        have h2 := (Bool.and_eq_true _ _).mp hc
        simpa using h2.2
      have hcount : (listPagesLoop pfx (pg :: rest)).2 = (listPagesLoop pfx rest).2 + 1 := by
        rw [listPagesLoop_cons_continue pfx pg rest last hl hc]
      obtain ⟨ih1, ih2, ih3, ih4⟩ :=
        ih hrest (fun p hp => hpg p (List.mem_cons_of_mem _ hp))
      refine ⟨by omega, ?_, ?_, ?_⟩
      · rw [hcount, List.length_cons]
        omega
      · intro i hi
        rw [hcount] at hi
        match i with
        | 0 =>
          refine ⟨by rw [List.getD_cons_zero, hmatch]; exact ((Bool.and_eq_true _ _).mp hc).1, ?_⟩
          rw [List.length_cons]
          have := List.length_pos.mpr hrest
          omega
        | j + 1 =>
          have hj := ih3 j (by omega)
          refine ⟨by rw [List.getD_cons_succ]; exact hj.1, ?_⟩
          rw [List.length_cons]
          omega
      · obtain ⟨m, hm⟩ : ∃ m, (listPagesLoop pfx rest).2 = m + 1 :=
          ⟨(listPagesLoop pfx rest).2 - 1, by omega⟩
        rw [hcount, hm]
        rcases ih4 with h4 | h4
        · left
          rw [hm] at h4
          simpa [List.getD_cons_succ] using h4
        · right
          rw [List.length_cons, ← h4, hm]
    · have hc' : (pyStartsWith last pfx && !rest.isEmpty) = false := by
        simpa using hc
      have hcount : (listPagesLoop pfx (pg :: rest)).2 = 1 := by
        rw [listPagesLoop_cons_stop pfx pg rest last hl hc']
      refine ⟨by omega, ?_, ?_, ?_⟩
      · rw [hcount, List.length_cons]
        omega
      · intro i hi
        rw [hcount] at hi
        omega
      · rw [hcount]
        by_cases hrest : rest = []
        · right
          simp [hrest]
        · left
          have hre : rest.isEmpty = false := by simpa using hrest
          rw [hre] at hc'
          simp only [Bool.not_false, Bool.and_true] at hc'
          rw [List.getD_cons_zero, hmatch]
          exact hc'

/-- Witness for C2: four nonempty pages, the third one has a last key
that leaves the prefix region. -/
theorem listPagesLoop_continuation_policy_witness :
    1 ≤ (listPagesLoop "a/" [["a/1"], ["a/3"], ["b"], ["a/9"]]).2 ∧
    (listPagesLoop "a/" [["a/1"], ["a/3"], ["b"], ["a/9"]]).2 ≤
      ([["a/1"], ["a/3"], ["b"], ["a/9"]] : List (List String)).length ∧
    (∀ i, i + 1 < (listPagesLoop "a/" [["a/1"], ["a/3"], ["b"], ["a/9"]]).2 →
      lastKeyMatches "a/" (([["a/1"], ["a/3"], ["b"], ["a/9"]] :
        List (List String)).getD i []) = true ∧
      i + 1 < ([["a/1"], ["a/3"], ["b"], ["a/9"]] : List (List String)).length) ∧
    (lastKeyMatches "a/" (([["a/1"], ["a/3"], ["b"], ["a/9"]] :
        List (List String)).getD
        ((listPagesLoop "a/" [["a/1"], ["a/3"], ["b"], ["a/9"]]).2 - 1) []) = false ∨
      (listPagesLoop "a/" [["a/1"], ["a/3"], ["b"], ["a/9"]]).2 =
        ([["a/1"], ["a/3"], ["b"], ["a/9"]] : List (List String)).length) :=
  listPagesLoop_continuation_policy "a/" [["a/1"], ["a/3"], ["b"], ["a/9"]]
    (by decide) (by decide)

theorem chunksOfFuel_flatten {α : Type*} (n : Nat) :
    ∀ (fuel : Nat) (l : List α), l.length ≤ fuel →
      (chunksOfFuel n fuel l).flatten = l := by
  intro fuel
  induction fuel with
  | zero =>
    intro l hl
    match l with
    | [] => rfl
    | x :: xs => simp at hl
  | succ fuel ih =>
    intro l hl
    match l with
    | [] => rfl
    | x :: xs =>
      simp only [chunksOfFuel, List.flatten_cons]
      rw [ih (xs.drop (n - 1)) ?_]
      · rw [List.cons_append, List.take_append_drop]
      · rw [List.length_drop]
        simp only [List.length_cons] at hl
        omega

theorem chunksOfFuel_mem_ne_nil {α : Type*} (n : Nat) :
    ∀ (fuel : Nat) (l : List α), ∀ pg ∈ chunksOfFuel n fuel l, pg ≠ [] := by
  intro fuel
  induction fuel with
  | zero =>
    intro l pg hpg
    match l with
    | [] => simp [chunksOfFuel] at hpg
    | x :: xs =>
      simp only [chunksOfFuel, List.mem_singleton] at hpg
      subst hpg
      exact List.cons_ne_nil x xs
  | succ fuel ih =>
    intro l pg hpg
    match l with
    | [] => simp [chunksOfFuel] at hpg
    | x :: xs =>
      simp only [chunksOfFuel, List.mem_cons] at hpg
      rcases hpg with h | h
      · subst h
        exact List.cons_ne_nil _ _
      · exact ih _ pg h

theorem chunksOf_flatten {α : Type*} (n : Nat) (l : List α) :
    (chunksOf n l).flatten = l :=
  chunksOfFuel_flatten n l.length l (Nat.le_refl _)

theorem chunksOf_mem_ne_nil {α : Type*} (n : Nat) (l : List α) :
    ∀ pg ∈ chunksOf n l, pg ≠ [] :=
  chunksOfFuel_mem_ne_nil n l.length l

theorem chunksOf_ne_nil {α : Type*} (n : Nat) (l : List α) (h : l ≠ []) :
    chunksOf n l ≠ [] := by
  match l with
  | [] => exact absurd rfl h
  | x :: xs => exact List.cons_ne_nil _ _

instance : IsIrrefl Char cpLt :=
  ⟨fun c => Nat.lt_irrefl c.toNat⟩

theorem pyLtChars_iff_lex : ∀ (l₁ l₂ : List Char),
    pyLtChars l₁ l₂ = true ↔ List.Lex cpLt l₁ l₂ := by
  intro l₁
  induction l₁ with
  | nil =>
    intro l₂
    cases l₂ with
    | nil => simp [pyLtChars]
    | cons d ds => exact iff_of_true rfl List.Lex.nil
  | cons c cs ih =>
    intro l₂
    cases l₂ with
    | nil => simp [pyLtChars]
    | cons d ds =>
      by_cases hcd : c = d
      · subst hcd
        rw [pyLtChars, if_pos rfl, ih ds]
        exact (List.Lex.cons_iff).symm
      · rw [pyLtChars]
        simp only [if_neg hcd, decide_eq_true_eq]
        constructor
        · exact fun h => List.Lex.rel h
        · intro h
          cases h with
          | cons h' => exact absurd rfl hcd
          | rel h' => exact h'

theorem lex_between_of_prefix (p : List Char) :
    ∀ (a b : List Char), List.Lex cpLt p a → List.Lex cpLt a b → p <+: b → p <+: a := by
  induction p with
  | nil =>
    intro a b _ _ _
    exact ⟨a, rfl⟩
  | cons c p' ih =>
    intro a b hpa hab hpb
    obtain ⟨t, rfl⟩ := hpb
    cases hpa with
    | cons h1 =>
      rename_i l₂
      cases hab with
      | cons h2 =>
        obtain ⟨u, hu⟩ := ih l₂ (p' ++ t) h1 h2 ⟨t, rfl⟩
        exact ⟨u, by rw [List.cons_append, hu]⟩
      | rel h2 => exact absurd h2 (Nat.lt_irrefl _)
    | rel h1 =>
      rename_i a₂ l₂
      cases hab with
      | cons h2 => exact absurd h1 (Nat.lt_irrefl _)
      | rel h2 => exact absurd h2 (Nat.lt_asymm h1)

theorem startsWith_downward {pfx a b : String}
    (h1 : pyLt pfx a = true) (h2 : pyLt a b = true)
    (h3 : pyStartsWith b pfx = true) : pyStartsWith a pfx = true := by
  rw [pyStartsWith, List.isPrefixOf_iff_prefix] at h3 ⊢
  rw [pyLt, pyLtChars_iff_lex] at h1 h2
  exact lex_between_of_prefix pfx.data a.data b.data h1 h2 h3

theorem listPagesLoop_result (pfx : String) (pages : List (List String))
    (hnil : pages ≠ []) (hpg : ∀ pg ∈ pages, pg ≠ [])
    (hpw : List.Pairwise
      (fun a b => pyStartsWith b pfx = true → pyStartsWith a pfx = true) pages.flatten) :
    (listPagesLoop pfx pages).1 =
      some (pages.flatten.filter (fun k => pyStartsWith k pfx)) := by
  induction pages with
  | nil => exact absurd rfl hnil
  | cons pg rest ih =>
    have hpgne : pg ≠ [] := hpg pg (List.mem_cons_self pg rest)
    obtain ⟨last, hl⟩ : ∃ last, pg.getLast? = some last := by
      cases h : pg.getLast? with
      | none => exact absurd (List.getLast?_eq_none_iff.mp h) hpgne
      | some k => exact ⟨k, rfl⟩
    have hpw2 : List.Pairwise
        (fun a b => pyStartsWith b pfx = true → pyStartsWith a pfx = true)
        (pg ++ rest.flatten) := by
      simpa [List.flatten_cons] using hpw
    by_cases hc : (pyStartsWith last pfx && !rest.isEmpty) = true
    · have hrest : rest ≠ [] := by
        have h2 := (Bool.and_eq_true _ _).mp hc
        simpa using h2.2
      rw [listPagesLoop_cons_continue pfx pg rest last hl hc]
      rw [ih hrest (fun p hp => hpg p (List.mem_cons_of_mem _ hp))
        (List.pairwise_append.mp hpw2).2.1]
      simp [List.flatten_cons, List.filter_append]
    · have hc' : (pyStartsWith last pfx && !rest.isEmpty) = false := by
        simpa using hc
      rw [listPagesLoop_cons_stop pfx pg rest last hl hc']
      by_cases hrest : rest = []
      · simp [hrest]
      · have hre : rest.isEmpty = false := by simpa using hrest
        rw [hre] at hc'
        simp only [Bool.not_false, Bool.and_true] at hc'
        have hlast_mem : last ∈ pg := List.mem_of_getLast?_eq_some hl
        have hR := (List.pairwise_append.mp hpw2).2.2
        have hnone : ∀ b ∈ rest.flatten, ¬ pyStartsWith b pfx = true := by
          intro b hb hbt
          have := hR last hlast_mem b hb hbt
          rw [hc'] at this
          exact Bool.false_ne_true this
        rw [List.flatten_cons, List.filter_append, List.filter_eq_nil_iff.mpr hnone,
          List.append_nil]

/-- C1 (amended): over a lexicographically sorted bucket, provided at
least one key sorts strictly after the normalized prefix
`rstrip(p, "/") + "/"`, `list_dir_files` returns exactly the keys of
the bucket that sort strictly after the normalized prefix and start
with it, in store order, however the keys are split into 100-key
pages; a key equal to the normalized prefix itself is skipped by
`StartAfter`, and when no key sorts after the prefix the call raises
instead of returning a list. -/
theorem list_dir_files_under_prefix (store : List String) (d : String)
    (hsort : List.Pairwise (fun a b => pyLt a b = true) store)
    (hne : store.filter (fun k => pyLt (normalizeDir d) k) ≠ []) :
    list_dir_files store d =
      some ((store.filter (fun k => pyLt (normalizeDir d) k)).filter
        (fun k => pyStartsWith k (normalizeDir d))) := by
  have hLsort : List.Pairwise (fun a b => pyLt a b = true)
      (store.filter (fun k => pyLt (normalizeDir d) k)) := hsort.filter _
  have hLmem : ∀ a ∈ store.filter (fun k => pyLt (normalizeDir d) k),
      pyLt (normalizeDir d) a = true := by
    intro a ha
    simpa using List.of_mem_filter ha
  have hpw : List.Pairwise
      (fun a b => pyStartsWith b (normalizeDir d) = true →
        pyStartsWith a (normalizeDir d) = true)
      (store.filter (fun k => pyLt (normalizeDir d) k)) := by
    refine List.Pairwise.imp_of_mem ?_ hLsort
    intro a b ha hb hab hm
    exact startsWith_downward (hLmem a ha) hab hm
  have hflat := chunksOf_flatten 100 (store.filter (fun k => pyLt (normalizeDir d) k))
  have h1 : list_dir_files store d =
      (listPagesLoop (normalizeDir d)
        (chunksOf 100 (store.filter (fun k => pyLt (normalizeDir d) k)))).1 := rfl
  rw [h1, listPagesLoop_result (normalizeDir d) _
    (chunksOf_ne_nil 100 _ hne) (chunksOf_mem_ne_nil 100 _) (by rwa [hflat]), hflat]

/-- Witness for C1 at a sorted four-key bucket. -/
theorem list_dir_files_under_prefix_witness :
    list_dir_files ["apple", "foo/a", "foo/b", "gamma"] "foo" = some ["foo/a", "foo/b"] := by
  have h := list_dir_files_under_prefix ["apple", "foo/a", "foo/b", "gamma"] "foo"
    (by decide) (by decide)
  rw [h]
  decide

/-- C1 counterexample: the key equal to the normalized prefix is in
the bucket and starts with the normalized prefix, yet `list_dir_files`
omits it, because `StartAfter` only serves keys sorting strictly after
the prefix. -/
theorem list_dir_files_counterexample :
    List.Pairwise (fun a b => pyLt a b = true) ["foo/", "foo/a"] ∧
    pyStartsWith "foo/" (normalizeDir "foo") = true ∧
    "foo/" ∈ (["foo/", "foo/a"] : List String) ∧
    list_dir_files ["foo/", "foo/a"] "foo" = some ["foo/a"] := by
  refine ⟨by decide, by decide, by decide, by decide⟩
